import Mathlib

/-
Shallow embedding of the retrieval pipeline of the enterprise-genai-platform
repository (document chunking, embedding batch generation, the Faiss and
pgvector vector stores, the hybrid store, and the cross-encoder reranker),
with theorems checking the natural-language specification against the code.

Modelling conventions:
 - Python floats are modelled as rationals.
 - External numeric capabilities (the embedding API, the cross-encoder
   predict call, the pgvector distance operator, numpy vector normalization,
   the tiktoken tokenizer) are passed in as explicit function parameters.
 - Fallible remote calls are modelled with Option or Except.
 - The unbounded Python while-loop of the chunker is modelled with explicit
   fuel, so that non-termination of the source loop is expressible as the
   fueled loop returning none for every fuel value.
-/

/-! ## Chunker (src/embeddings/embedding_pipeline.py, DocumentChunker) -/

/-- One chunk produced by DocumentChunker.chunk_document, recording the token
window start offset, the token slice, the chunk index and the two metadata
fields the code writes (chunk_size and chunk_overlap). -/
structure ChunkRec where
  window_start : Int
  chunk_tokens : List Nat
  chunk_index : Nat
  meta_chunk_size : Nat
  meta_chunk_overlap : Nat
deriving DecidableEq

/-- Effective index of a Python slice bound i on a list of length len
(negative indices count from the end and are clamped to 0,
nonnegative ones are clamped to len). -/
def pyIdx (len : Nat) (i : Int) : Nat :=
  if i < 0 then ((len : Int) + i).toNat else min i.toNat len

/-- Python slice xs[a:b]. -/
def pySlice {α : Type} (xs : List α) (a b : Int) : List α :=
  (xs.take (pyIdx xs.length b)).drop (pyIdx xs.length a)

/-- The start-offset update of the chunking loop: the next window starts at
end minus overlap, where end = min(start + chunk_size, len(tokens)).
Translated from lines 60 and 88 of embedding_pipeline.py. -/
def next_window_start (chunk_size chunk_overlap : Nat) (len : Nat) (start : Int) : Int :=
  min (start + (chunk_size : Int)) (len : Int) - (chunk_overlap : Int)

/-- The while-loop of DocumentChunker.chunk_document, with explicit fuel.
Each iteration checks start < len(tokens), slices tokens[start:end] with
end = min(start + chunk_size, len), records the chunk with its metadata
(chunk_overlap metadata is the configured overlap for chunk_index > 0 and 0
for the first chunk), then sets start = end - chunk_overlap and breaks only
when the new start reaches len(tokens). Returns none when fuel runs out,
modelling a loop that is still running. -/
def chunk_loop (chunk_size chunk_overlap : Nat) (tokens : List Nat) :
    Nat → Int → Nat → List ChunkRec → Option (List ChunkRec)
  | 0, _, _, _ => none
  | fuel + 1, start, idx, acc =>
    if start < (tokens.length : Int) then
      let e : Int := min (start + (chunk_size : Int)) (tokens.length : Int)
      let ct := pySlice tokens start e
      let c : ChunkRec := ⟨start, ct, idx, ct.length, if 0 < idx then chunk_overlap else 0⟩
      let start2 := next_window_start chunk_size chunk_overlap tokens.length start
      if (tokens.length : Int) ≤ start2 then some (acc ++ [c])
      else chunk_loop chunk_size chunk_overlap tokens fuel start2 (idx + 1) (acc ++ [c])
    else some acc

/-- DocumentChunker.chunk_document on a tokenized content, run with enough
fuel for any terminating execution whose window start advances by at least
one token per iteration. -/
def chunk_document (chunk_size chunk_overlap : Nat) (tokens : List Nat) :
    Option (List ChunkRec) :=
  chunk_loop chunk_size chunk_overlap tokens (tokens.length + 2) 0 0 []

/-! ## Faiss store (src/vectorstores/faiss_store.py) -/

/-- FaissDocument dataclass: metadata record kept beside the index. -/
structure FaissDocument where
  content : String
  metadata : List (String × String)
  chunk_id : String
  document_id : String
deriving DecidableEq

/-- In-memory state of FaissStore: the flat inner-product index (one stored
vector per position), the parallel documents array, and the chunk_id to
position map. -/
structure FaissState where
  index : List (List ℚ)
  documents : List FaissDocument
  document_map : List (String × Nat)
deriving DecidableEq

/-- FaissStore._create_index: fresh empty index, documents and map. -/
def create_index : FaissState := ⟨[], [], []⟩

/-- FaissStore._rebuild_index. The code creates a new empty index, clears the
document map, immediately breaks out of the loop over documents because the
original embeddings were never stored, and then assigns the empty index,
an empty documents list and an empty map. -/
def rebuild_index (s : FaissState) : FaissState :=
  if s.documents.isEmpty then create_index
  else { index := [], documents := [], document_map := [] }

/-- FaissStore.get_document_chunks: all metadata records whose document_id
matches. -/
def get_document_chunks (s : FaissState) (document_id : String) : List FaissDocument :=
  s.documents.filter (fun d => d.document_id == document_id)

/-- FaissStore.delete_document: collect the positions of the chunks of the
given document; if there are none return True leaving the state untouched;
otherwise drop those documents (deletion by descending position equals
filtering) and rebuild the index. -/
def delete_document (s : FaissState) (document_id : String) : Bool × FaissState :=
  let chunks_to_delete :=
    (s.documents.enum.filter (fun p => p.2.document_id == document_id)).map (fun p => p.1)
  if chunks_to_delete.isEmpty then (true, s)
  else
    let documents2 := s.documents.filter (fun d => d.document_id != document_id)
    (true, rebuild_index { s with documents := documents2 })

/-- Inner product of two vectors, as numpy computes scores for IndexFlatIP. -/
def dot (a b : List ℚ) : ℚ := (List.zipWith (fun x y => x * y) a b).sum

/-- Stable insertion of x into a list sorted descending by key: x is placed
before the first element whose key is at most key x, so an element equal in
key to x keeps its earlier position. -/
def insert_by_score {α : Type} (key : α → ℚ) (x : α) : List α → List α
  | [] => [x]
  | y :: ys => if key y ≤ key x then x :: y :: ys else y :: insert_by_score key x ys

/-- Stable descending sort by a rational key. A stable sort is determined
uniquely by the comparison key, so this models both the sorted order faiss
returns for IndexFlatIP searches (score descending, ties by position) and
Python list.sort with reverse=True. -/
def sort_by_score_desc {α : Type} (key : α → ℚ) : List α → List α
  | [] => []
  | x :: xs => insert_by_score key x (sort_by_score_desc key xs)

/-- SearchResult record returned by similarity searches. -/
structure SearchResult where
  content : String
  metadata : List (String × String)
  similarity_score : ℚ
  chunk_id : String
  document_id : String
deriving DecidableEq

/-- FaissStore.similarity_search. An empty index returns no results;
otherwise the query is normalized (normalization is the external numpy
capability, passed as a parameter), every stored vector is scored by inner
product, faiss returns the top min(top_k, ntotal) pairs of score and
position in descending score order, and the loop keeps those with
score at least the threshold, resolving each position in the documents
array. -/
def faiss_similarity_search (normalize : List ℚ → List ℚ) (s : FaissState)
    (query_embedding : List ℚ) (top_k : Nat) (similarity_threshold : ℚ) :
    List SearchResult :=
  if s.index.length = 0 then []
  else
    let q := normalize query_embedding
    let scored := s.index.enum.map (fun p => (dot p.2 q, p.1))
    let ranked := (sort_by_score_desc (fun p => p.1) scored).take (min top_k s.index.length)
    ranked.filterMap (fun p =>
      if similarity_threshold ≤ p.1 then
        (s.documents.get? p.2).map (fun doc =>
          (⟨doc.content, doc.metadata, p.1, doc.chunk_id, doc.document_id⟩ : SearchResult))
      else none)

/-! ## PgVector store (src/vectorstores/pgvector_store.py) -/

/-- One row of the embeddings table. -/
structure PgRow where
  document_id : String
  chunk_id : String
  content : String
  embedding : List ℚ
  metadata : List (String × String)
  created_at : Option Nat
  updated_at : Option Nat
deriving DecidableEq

/-- One element of the embeddings_data batch passed to add_embeddings. -/
structure EmbeddingData where
  document_id : String
  chunk_id : String
  content : String
  embedding : List ℚ
  metadata : List (String × String)
  created_at : Option Nat
deriving DecidableEq

/-- Modelled from the spec: the CREATE TABLE statement for the embeddings
table is not in the source tree, only the INSERT and SELECT statements are.
Per the spec schema each row carries created_at and updated_at columns and
an upsert bumps updated_at; we model the database default applied to
updated_at when a row is first inserted as the statement time. -/
def insert_default_updated_at (now : Nat) : Option Nat := some now

/-- The ON CONFLICT (chunk_id) DO UPDATE action of the PgVectorStore insert:
a conflicting row keeps its document_id and created_at but takes the new
content, embedding and metadata, and updated_at becomes NOW(). -/
def upsert_update (now : Nat) (d : EmbeddingData) (r : PgRow) : PgRow :=
  if r.chunk_id == d.chunk_id then
    { r with content := d.content, embedding := d.embedding,
             metadata := d.metadata, updated_at := some now }
  else r

/-- Effect of one INSERT ... ON CONFLICT (chunk_id) DO UPDATE statement on
the table: if some row already has the chunk_id the conflicting row is
updated in place, otherwise a fresh row is appended. -/
def upsert_row (now : Nat) (table : List PgRow) (d : EmbeddingData) : List PgRow :=
  if table.any (fun r => r.chunk_id == d.chunk_id) then
    table.map (upsert_update now d)
  else
    table ++ [⟨d.document_id, d.chunk_id, d.content, d.embedding, d.metadata,
               d.created_at, insert_default_updated_at now⟩]

/-- PgVectorStore.add_embeddings: executemany runs the upsert statement once
per batch element, in batch order. -/
def pg_add_embeddings (now : Nat) (table : List PgRow) (batch : List EmbeddingData) :
    List PgRow :=
  batch.foldl (upsert_row now) table

/-- PgVectorStore.similarity_search: the SQL query computes
similarity = 1 - (embedding distance to the query) per row, keeps rows with
similarity strictly greater than the threshold and, for every key-value pair
of the metadata filter, metadata ->> key equal to the value; it orders by
similarity descending and limits to top_k. The pgvector distance operator is
the external capability dist. -/
def pg_similarity_search (dist : List ℚ → List ℚ → ℚ) (table : List PgRow)
    (query_embedding : List ℚ) (top_k : Nat) (similarity_threshold : ℚ)
    (filter_metadata : List (String × String)) : List SearchResult :=
  let scored := table.map (fun r => (r, 1 - dist r.embedding query_embedding))
  let matching := scored.filter (fun p =>
    decide (similarity_threshold < p.2) &&
      filter_metadata.all (fun kv => p.1.metadata.lookup kv.1 == some kv.2))
  let sorted := sort_by_score_desc (fun p => p.2) matching
  (sorted.take top_k).map (fun p =>
    (⟨p.1.content, p.1.metadata, p.2, p.1.chunk_id, p.1.document_id⟩ : SearchResult))

/-! ## Unified and hybrid stores (src/vectorstores/unified_store.py) -/

/-- HybridVectorStore.add_embeddings, as a function of the outcomes of the
two backend writes (each backend either raises, modelled as Except.error, or
returns its boolean success flag). The primary store is written first, the
two flags are conjoined into a single boolean, and any exception
propagates. -/
def hybrid_add_embeddings (primary_is_pgvector : Bool)
    (pgvector_add faiss_add : Except String Bool) : Except String Bool :=
  if primary_is_pgvector then do
    let p ← pgvector_add
    let f ← faiss_add
    pure (p && f)
  else do
    let f ← faiss_add
    let p ← pgvector_add
    pure (p && f)

/-- HybridVectorStore.delete_document, as a function of the outcomes of the
two backend deletes: pgvector first, then faiss, the two flags conjoined
into a single boolean. -/
def hybrid_delete_document (pgvector_delete faiss_delete : Except String Bool) :
    Except String Bool := do
  let p ← pgvector_delete
  let f ← faiss_delete
  pure (p && f)

/-- HybridVectorStore.similarity_search: the use_faiss flag (whose Python
default is True) alone selects the backend; with use_faiss the Faiss store
is searched and the metadata filter is not passed to it, otherwise pgvector
is searched with the filter. -/
def hybrid_similarity_search (dist : List ℚ → List ℚ → ℚ)
    (normalize : List ℚ → List ℚ) (pg_table : List PgRow) (fs : FaissState)
    (query_embedding : List ℚ) (top_k : Nat) (similarity_threshold : ℚ)
    (filter_metadata : List (String × String)) (use_faiss : Bool) :
    List SearchResult :=
  if use_faiss then
    faiss_similarity_search normalize fs query_embedding top_k similarity_threshold
  else
    pg_similarity_search dist pg_table query_embedding top_k similarity_threshold
      filter_metadata

/-! ## Embedding generation (src/embeddings/embedding_pipeline.py,
EmbeddingGenerator) -/

/-- The sub-batches visited by the loop for i in range(0, len(texts),
batch_size), with fuel bounding the number of iterations (texts.length
suffices whenever batch_size is positive). -/
def to_batches (batch_size : Nat) : Nat → List String → List (List String)
  | 0, _ => []
  | _, [] => []
  | fuel + 1, texts =>
    texts.take batch_size :: to_batches batch_size fuel (texts.drop batch_size)

/-- EmbeddingGenerator.generate_embeddings_batch. Each sub-batch is sent to
the batch embedding endpoint (batch_api, returning for each response item
its index into the sub-batch and its vector; token counts are recomputed
locally from the tokenizer encode). If the batch call raises, the code falls
back to one embed call per text (embed_one models generate_embedding
together with its retry policy); a text whose individual call still fails
contributes the degraded pair of an empty vector and token count 0. -/
def generate_embeddings_batch (encode : String → List Nat)
    (batch_api : List String → Option (List (Nat × List ℚ)))
    (embed_one : String → Option (List ℚ × Nat))
    (batch_size : Nat) (texts : List String) : List (List ℚ × Nat) :=
  (to_batches batch_size texts.length texts).flatMap (fun batch =>
    match batch_api batch with
    | some datas => datas.map (fun p => (p.2, (encode (batch.getD p.1 "")).length))
    | none => batch.map (fun t =>
        match embed_one t with
        | some r => r
        | none => ([], 0)))

/-! ## Reranker (src/retrieval/reranker.py) -/

/-- A retrieval candidate passed to rerank (the fields of the result dicts
the stores produce). -/
structure RerankDoc where
  content : String
  metadata : List (String × String)
  similarity_score : ℚ
  chunk_id : String
  document_id : String
deriving DecidableEq

/-- RerankResult dataclass. -/
structure RerankResult where
  content : String
  metadata : List (String × String)
  original_score : ℚ
  rerank_score : ℚ
  chunk_id : String
  document_id : String
  rank_change : Int
deriving DecidableEq

/-- The original_ranks dictionary built by rerank: chunk_id maps to its index
in the candidate list, a later duplicate overwriting an earlier one, and
lookup falls back to the given default (the code passes the new index). -/
def original_ranks_lookup (documents : List RerankDoc) (cid : String)
    (default : Nat) : Nat :=
  match documents.enum.reverse.find? (fun p => p.2.chunk_id == cid) with
  | some p => p.1
  | none => default

/-- The loop for i, result in enumerate(results) that assigns
result.rank_change = original_ranks.get(result.chunk_id, i) - i on the
sorted results. -/
def assign_ranks (documents : List RerankDoc) : Nat → List RerankResult → List RerankResult
  | _, [] => []
  | i, r :: rs =>
    { r with rank_change :=
        (original_ranks_lookup documents r.chunk_id i : Int) - (i : Int) } ::
      assign_ranks documents (i + 1) rs

/-- CrossEncoderReranker.rerank. Empty candidate lists return immediately.
Otherwise every (query, content) pair is scored by the external
cross-encoder capability predict (a failing call makes the whole rerank
raise, modelled as none), the results are sorted by rerank score descending
with the Python stable sort, rank changes are assigned, and top_k truncation
happens last. -/
def cross_encoder_rerank (predict : String → String → Option ℚ)
    (query : String) (documents : List RerankDoc) (top_k : Option Nat) :
    Option (List RerankResult) :=
  if documents.isEmpty then some []
  else do
    let scores ← documents.mapM (fun doc => predict query doc.content)
    let results := (documents.zip scores).map (fun p =>
      (⟨p.1.content, p.1.metadata, p.1.similarity_score, p.2, p.1.chunk_id,
        p.1.document_id, 0⟩ : RerankResult))
    let sorted := sort_by_score_desc (fun r => r.rerank_score) results
    let ranked := assign_ranks documents 0 sorted
    some (match top_k with
      | some k => ranked.take k
      | none => ranked)

/-- HybridReranker.rerank. Empty candidate lists return immediately;
otherwise the cross-encoder rerank runs without top_k, each candidate is
zipped positionally with the (sorted) cross-encoder results, the weighted
blend of original similarity and cross-encoder score is the hybrid score,
and sorting, rank assignment and truncation follow as in the cross-encoder
rerank. -/
def hybrid_rerank (predict : String → String → Option ℚ)
    (w_original w_cross : ℚ) (query : String) (documents : List RerankDoc)
    (top_k : Option Nat) : Option (List RerankResult) :=
  if documents.isEmpty then some []
  else do
    let ce ← cross_encoder_rerank predict query documents none
    let hybrid := (documents.zip ce).map (fun p =>
      (⟨p.1.content, p.1.metadata, p.1.similarity_score,
        w_original * p.1.similarity_score + w_cross * p.2.rerank_score,
        p.1.chunk_id, p.1.document_id, 0⟩ : RerankResult))
    let sorted := sort_by_score_desc (fun r => r.rerank_score) hybrid
    let ranked := assign_ranks documents 0 sorted
    some (match top_k with
      | some k => ranked.take k
      | none => ranked)

/-- Scenario candidates fixed by the spec rerank-ordering test: original
similarity scores 0.9, 0.85, 0.80, supplied in that order. -/
def c6_candidates : List RerankDoc :=
  [⟨"t1", [], 9/10, "c1", "D1"⟩,
   ⟨"t2", [], 85/100, "c2", "D2"⟩,
   ⟨"t3", [], 8/10, "c3", "D3"⟩]

/-- Cross-encoder capability for the scenario: scores 0.2, 0.95, 0.9 for the
three candidate contents. -/
def c6_predict : String → String → Option ℚ := fun _ c =>
  if c == "t1" then some (2/10)
  else if c == "t2" then some (95/100)
  else if c == "t3" then some (9/10)
  else none

/-! ## Lemmas and claim theorems -/

theorem chunk_loop_fixed_point (chunk_size chunk_overlap : Nat) (tokens : List Nat)
    (s : Int) (hlt : s < (tokens.length : Int))
    (hfix : next_window_start chunk_size chunk_overlap tokens.length s = s) :
    ∀ (fuel idx : Nat) (acc : List ChunkRec),
      chunk_loop chunk_size chunk_overlap tokens fuel s idx acc = none := by
  intro fuel
  induction fuel with
  | zero => intro idx acc; rfl
  | succ n ih =>
    intro idx acc
    simp only [chunk_loop, hfix, if_pos hlt]
    rw [if_neg (by exact fun h => absurd hlt (by omega))]
    exact ih _ _

/-- Claim C1: the spec requires strictly increasing window start offsets and
termination of the chunking loop for every configuration with positive
chunk_size and overlap below chunk_size. The code violates this: with
chunk_size 5, overlap 2 and 3-token content, the loop runs forever (the
fueled model returns none for every fuel), because the start offset reaches
the fixed point 1 of the update start = min(start + chunk_size, len) -
overlap and never increases again. -/
theorem chunking_loop_never_terminates_with_overlap :
    (∀ fuel : Nat, chunk_loop 5 2 [0, 1, 2] fuel 0 0 [] = none)
    ∧ next_window_start 5 2 3 0 = 1
    ∧ next_window_start 5 2 3 1 = 1 := by
  refine ⟨?_, by decide, by decide⟩
  intro fuel
  cases fuel with
  | zero => rfl
  | succ n =>
    simp only [chunk_loop]
    norm_num [next_window_start, pySlice, pyIdx]
    exact chunk_loop_fixed_point 5 2 [0, 1, 2] 1 (by decide) (by decide) n 1 _

/-- Claim C4: chunk_document on empty content returns the empty sequence
without error, and with overlap 0 a content shorter than chunk_size yields
exactly one chunk with overlap metadata 0; but with the configured positive
overlap (here 2) a 3-token content (shorter than chunk_size 5) makes the
loop run forever instead of returning one chunk, so the claim fails on the
code. -/
theorem chunk_document_empty_and_short_content :
    chunk_document 5 2 [] = some []
    ∧ chunk_document 5 0 [7, 8, 9] = some [⟨0, [7, 8, 9], 0, 3, 0⟩]
    ∧ (∀ fuel : Nat, chunk_loop 5 2 [7, 8, 9] fuel 0 0 [] = none) := by
  refine ⟨by decide, by decide, ?_⟩
  intro fuel
  cases fuel with
  | zero => rfl
  | succ n =>
    simp only [chunk_loop]
    norm_num [next_window_start, pySlice, pyIdx]
    exact chunk_loop_fixed_point 5 2 [7, 8, 9] 1 (by decide) (by decide) n 1 _

/-- Claim C2: the spec requires delete_document(D) to keep every chunk of
other documents (rebuilding the index from retained embeddings). The code
instead empties the whole store whenever at least one chunk is deleted:
starting from a store holding one chunk of document D1 and one chunk of D2,
deleting D1 leaves get_document_chunks for D2 empty (it was non-empty
before) and resets the entire state to the fresh empty index. -/
theorem faiss_delete_document_wipes_other_documents :
    get_document_chunks
        (delete_document
          ⟨[[1, 0], [0, 1]],
           [⟨"alpha", [], "c1", "D1"⟩, ⟨"beta", [], "c2", "D2"⟩],
           [("c1", 0), ("c2", 1)]⟩ "D1").2 "D2" = []
    ∧ get_document_chunks
        ⟨[[1, 0], [0, 1]],
         [⟨"alpha", [], "c1", "D1"⟩, ⟨"beta", [], "c2", "D2"⟩],
         [("c1", 0), ("c2", 1)]⟩ "D2" = [⟨"beta", [], "c2", "D2"⟩]
    ∧ (delete_document
        ⟨[[1, 0], [0, 1]],
         [⟨"alpha", [], "c1", "D1"⟩, ⟨"beta", [], "c2", "D2"⟩],
         [("c1", 0), ("c2", 1)]⟩ "D1").2 = create_index := by
  refine ⟨by decide, by decide, by decide⟩

/-- Claim C9: deleting a document that has no chunks in the Faiss store
returns True and leaves the state (index, documents array and chunk map)
exactly unchanged, and in particular performs no index rebuild. -/
theorem faiss_delete_absent_document_noop (s : FaissState) (D : String)
    (h : ∀ d ∈ s.documents, d.document_id ≠ D) :
    delete_document s D = (true, s) := by
  have hfilter :
      s.documents.enum.filter (fun p => p.2.document_id == D) = [] := by
    rw [List.filter_eq_nil_iff]
    intro p hp
    have hmem : p.2 ∈ s.documents := by
      have := List.enum_map_snd s.documents
      exact this ▸ List.mem_map_of_mem Prod.snd hp
    simpa using h p.2 hmem
  simp [delete_document, hfilter]

/-- Claim C9 witness: concrete application on a one-chunk store and an
absent document id. -/
theorem faiss_delete_absent_document_noop_witness :
    delete_document ⟨[[1]], [⟨"alpha", [], "c1", "D1"⟩], [("c1", 0)]⟩ "D9"
      = (true, ⟨[[1]], [⟨"alpha", [], "c1", "D1"⟩], [("c1", 0)]⟩) :=
  faiss_delete_absent_document_noop
    ⟨[[1]], [⟨"alpha", [], "c1", "D1"⟩], [("c1", 0)]⟩ "D9" (by decide)

/-- Claim C3: the spec says a hybrid write or delete with one backend
succeeding and the other failing is surfaced as a structured result naming
the failed backend. The code collapses both outcomes into one boolean: the
two opposite partial failures (pgvector ok but faiss failed, and faiss ok
but pgvector failed) both return the bare value false, so the result cannot
name the failed backend. -/
theorem hybrid_mixed_outcome_is_a_bare_boolean :
    hybrid_add_embeddings true (Except.ok true) (Except.ok false) = Except.ok false
    ∧ hybrid_add_embeddings true (Except.ok false) (Except.ok true) = Except.ok false
    ∧ hybrid_delete_document (Except.ok true) (Except.ok false) = Except.ok false
    ∧ hybrid_delete_document (Except.ok false) (Except.ok true) = Except.ok false :=
  ⟨rfl, rfl, rfl, rfl⟩

/-- Claim C3 amended: when both backends return a flag, the hybrid
add_embeddings and delete_document return the single boolean conjunction of
the two flags (so a partial failure is reported as plain false, without
identifying the failed backend), and an exception raised by a backend
propagates. -/
theorem hybrid_write_delete_boolean_conjunction (prim p f : Bool) (e : String) :
    hybrid_add_embeddings prim (Except.ok p) (Except.ok f) = Except.ok (p && f)
    ∧ hybrid_delete_document (Except.ok p) (Except.ok f) = Except.ok (p && f)
    ∧ hybrid_delete_document (Except.error e) (Except.ok f) = Except.error e := by
  cases prim <;> exact ⟨rfl, rfl, rfl⟩

/-- Claim C10: rerank on an empty candidate list returns the empty list for
every query, on both the cross-encoder and the hybrid reranker, without
invoking the cross-encoder scoring capability: the statement holds for every
predict function, including the everywhere-failing one, and returns a
success (some) rather than the failure any predict invocation would
propagate. -/
theorem rerank_empty_candidates_skips_cross_encoder
    (predict : String → String → Option ℚ) (query : String)
    (top_k : Option Nat) (w_original w_cross : ℚ) :
    cross_encoder_rerank predict query [] top_k = some []
    ∧ hybrid_rerank predict w_original w_cross query [] top_k = some [] :=
  ⟨rfl, rfl⟩

theorem flatMap_to_batches_eq_map (batch_size : Nat) (hbs : 0 < batch_size)
    (F : List String → List (List ℚ × Nat)) (f : String → List ℚ × Nat) :
    ∀ (fuel : Nat) (texts : List String), texts.length ≤ fuel →
      (∀ b ∈ to_batches batch_size fuel texts, F b = b.map f) →
      (to_batches batch_size fuel texts).flatMap F = texts.map f := by
  intro fuel
  induction fuel with
  | zero =>
    intro texts hlen _
    have htexts : texts = [] := List.length_eq_zero.mp (Nat.le_zero.mp hlen)
    subst htexts
    rfl
  | succ n ih =>
    intro texts hlen hF
    cases texts with
    | nil => rfl
    | cons a as =>
      simp only [to_batches, List.flatMap_cons]
      rw [hF _ (List.mem_cons_self _ _)]
      have hdrop : ((a :: as).drop batch_size).length ≤ n := by
        rw [List.length_drop]
        have h1 : 1 ≤ batch_size := hbs
        have h2 : (a :: as).length = as.length + 1 := List.length_cons a as
        omega
      rw [ih ((a :: as).drop batch_size) hdrop
            (fun b hb => hF b (List.mem_cons_of_mem _ hb))]
      rw [← List.map_append, List.take_append_drop]

/-- Claim C7: when the batch embedding call fails on every sub-batch, each
text is retried individually through embed_one (the single-call path with
its retry policy); a text that still fails contributes the degraded pair
(empty vector, token count 0) at its own position, so the function returns
exactly one result per input text and each sibling text result stays
individual embedding outcomes, unaffected by the failures. -/
theorem generate_embeddings_batch_falls_back_per_text
    (encode : String → List Nat)
    (batch_api : List String → Option (List (Nat × List ℚ)))
    (embed_one : String → Option (List ℚ × Nat))
    (batch_size : Nat) (texts : List String)
    (hbs : 0 < batch_size)
    (hfail : ∀ b ∈ to_batches batch_size texts.length texts, batch_api b = none) :
    generate_embeddings_batch encode batch_api embed_one batch_size texts
      = texts.map (fun t =>
          match embed_one t with
          | some r => r
          | none => ([], 0)) := by
  unfold generate_embeddings_batch
  exact flatMap_to_batches_eq_map batch_size hbs _ _ texts.length texts le_rfl
    (fun b hb => by rw [hfail b hb])

/-- Claim C7 witness: three texts in sub-batches of two, the batch endpoint
always failing and the middle text failing individually; the result has one
entry per text with the degraded pair in the middle. -/
theorem generate_embeddings_batch_falls_back_per_text_witness :
    0 < 2
    ∧ (∀ b ∈ to_batches 2 (["a", "b", "c"].length) ["a", "b", "c"],
        (fun (_ : List String) => (none : Option (List (Nat × List ℚ)))) b = none)
    ∧ generate_embeddings_batch (fun _ => [0]) (fun _ => none)
        (fun t => if t == "b" then none else some ([1], 3)) 2 ["a", "b", "c"]
      = [([1], 3), ([], 0), ([1], 3)] :=
  ⟨by decide, fun b _ => rfl, by
    rw [generate_embeddings_batch_falls_back_per_text (fun _ => [0]) (fun _ => none)
      (fun t => if t == "b" then none else some ([1], 3)) 2 ["a", "b", "c"]
      (by decide) (fun b _ => rfl)]
    decide⟩

theorem mem_insert_by_score {α : Type} (key : α → ℚ) (x : α) (l : List α) (y : α) :
    y ∈ insert_by_score key x l ↔ y = x ∨ y ∈ l := by
  induction l with
  | nil => simp [insert_by_score]
  | cons z zs ih =>
    simp only [insert_by_score]
    split
    · simp [List.mem_cons]
    · simp only [List.mem_cons, ih]
      tauto

theorem mem_sort_by_score_desc {α : Type} (key : α → ℚ) (l : List α) (y : α) :
    y ∈ sort_by_score_desc key l ↔ y ∈ l := by
  induction l with
  | nil => simp [sort_by_score_desc]
  | cons z zs ih =>
    simp only [sort_by_score_desc, mem_insert_by_score, List.mem_cons, ih]

theorem pairwise_insert_by_score {α : Type} (key : α → ℚ) (x : α) (l : List α)
    (h : l.Pairwise (fun a b => key b ≤ key a)) :
    (insert_by_score key x l).Pairwise (fun a b => key b ≤ key a) := by
  induction l with
  | nil => simp [insert_by_score]
  | cons y ys ih =>
    rw [List.pairwise_cons] at h
    simp only [insert_by_score]
    split
    · rename_i hc
      rw [List.pairwise_cons]
      refine ⟨?_, List.pairwise_cons.mpr h⟩
      intro z hz
      rcases List.mem_cons.mp hz with hzy | hzys
      · exact hzy ▸ hc
      · exact le_trans (h.1 z hzys) hc
    · rename_i hc
      rw [List.pairwise_cons]
      refine ⟨?_, ih h.2⟩
      intro z hz
      rcases (mem_insert_by_score key x ys z).mp hz with hzx | hzys
      · exact hzx ▸ le_of_lt (lt_of_not_le hc)
      · exact h.1 z hzys

theorem sort_by_score_desc_sorted {α : Type} (key : α → ℚ) (l : List α) :
    (sort_by_score_desc key l).Pairwise (fun a b => key b ≤ key a) := by
  induction l with
  | nil => simp [sort_by_score_desc]
  | cons x xs ih => exact pairwise_insert_by_score key x (sort_by_score_desc key xs) ih

/-- Claim C5 counterexample: a similarity_search call that supplies a
metadata filter but leaves use_faiss at its Python default True is routed to
the Faiss store and the filter is dropped: on a hybrid store whose Faiss
side holds one chunk tagged lang=en, searching with filter lang=fr returns
that chunk, which does not satisfy the filter (the persistent backend, here
an empty table, is never consulted). -/
theorem hybrid_search_filter_ignored_on_default_path :
    hybrid_similarity_search (fun _ _ => 0) (fun v => v) []
        ⟨[[1, 0]], [⟨"hello", [("lang", "en")], "c1", "D1"⟩], [("c1", 0)]⟩
        [1, 0] 5 0 [("lang", "fr")] true
      = [⟨"hello", [("lang", "en")], 1, "c1", "D1"⟩]
    ∧ ([("lang", "en")] : List (String × String)).lookup "lang" ≠ some "fr" := by
  refine ⟨by with_unfolding_all decide, by decide⟩

/-- Claim C5 amended: routing is controlled solely by the use_faiss flag
(whose Python default is True). With use_faiss the call goes to the
in-memory exact index and a supplied metadata filter is ignored; with
use_faiss set to False the call goes to the persistent backend and every
returned result satisfies every key-value pair of the metadata equality
filter. -/
theorem hybrid_search_routing_and_filter (dist : List ℚ → List ℚ → ℚ)
    (normalize : List ℚ → List ℚ) (pg_table : List PgRow) (fs : FaissState)
    (q : List ℚ) (top_k : Nat) (threshold : ℚ)
    (filter_metadata : List (String × String)) :
    (hybrid_similarity_search dist normalize pg_table fs q top_k threshold
        filter_metadata true
      = faiss_similarity_search normalize fs q top_k threshold)
    ∧ (∀ r ∈ hybrid_similarity_search dist normalize pg_table fs q top_k threshold
          filter_metadata false,
        ∀ kv ∈ filter_metadata, r.metadata.lookup kv.1 = some kv.2) := by
  constructor
  · rfl
  · intro r hr kv hkv
    have hr2 : r ∈ pg_similarity_search dist pg_table q top_k threshold
        filter_metadata := hr
    simp only [pg_similarity_search] at hr2
    rcases List.mem_map.mp hr2 with ⟨p, hp, hgp⟩
    have hp2 := List.take_subset top_k _ hp
    have hp3 := (mem_sort_by_score_desc _ _ p).mp hp2
    have hp4 := List.mem_filter.mp hp3
    have hp5 := hp4.2
    rw [Bool.and_eq_true] at hp5
    have hall := hp5.2
    have hbeq := List.all_eq_true.mp hall kv hkv
    have heq : p.1.metadata.lookup kv.1 = some kv.2 := eq_of_beq hbeq
    rw [← hgp]
    exact heq

/-- Claim C5 witness: concrete pgvector-path call whose single result
satisfies the filter it was queried with. -/
theorem hybrid_search_routing_and_filter_witness :
    (⟨"hi", [("lang", "en")], 1, "c1", "D1"⟩ : SearchResult)
        ∈ hybrid_similarity_search (fun _ _ => 0) (fun v => v)
            [⟨"D1", "c1", "hi", [1], [("lang", "en")], none, none⟩] ⟨[], [], []⟩
            [1] 5 0 [("lang", "en")] false
    ∧ ("lang", "en") ∈ [("lang", "en")]
    ∧ (⟨"hi", [("lang", "en")], 1, "c1", "D1"⟩ : SearchResult).metadata.lookup "lang"
        = some "en" :=
  ⟨by with_unfolding_all decide, by decide,
    (hybrid_search_routing_and_filter (fun _ _ => 0) (fun v => v)
        [⟨"D1", "c1", "hi", [1], [("lang", "en")], none, none⟩] ⟨[], [], []⟩
        [1] 5 0 [("lang", "en")]).2
      ⟨"hi", [("lang", "en")], 1, "c1", "D1"⟩ (by with_unfolding_all decide)
      ("lang", "en") (by decide)⟩

theorem assign_ranks_map_score (documents : List RerankDoc) :
    ∀ (n : Nat) (l : List RerankResult),
      (assign_ranks documents n l).map (fun r => r.rerank_score)
        = l.map (fun r => r.rerank_score) := by
  intro n l
  induction l generalizing n with
  | nil => rfl
  | cons r rs ih => simp [assign_ranks, ih]

theorem assign_ranks_rank_change (documents : List RerankDoc) :
    ∀ (l : List RerankResult) (n i : Nat)
      (h : i < (assign_ranks documents n l).length),
      ((assign_ranks documents n l).get ⟨i, h⟩).rank_change
        = (original_ranks_lookup documents
            ((assign_ranks documents n l).get ⟨i, h⟩).chunk_id (n + i) : Int)
          - ((n + i : Nat) : Int) := by
  intro l
  induction l with
  | nil => intro n i h; simp [assign_ranks] at h
  | cons r rs ih =>
    intro n i h
    cases i with
    | zero => simp [assign_ranks]
    | succ j =>
      have h2 : j < (assign_ranks documents (n + 1) rs).length := by
        simpa [assign_ranks] using h
      have heq : n + 1 + j = n + (j + 1) := by omega
      have := ih (n + 1) j h2
      rw [heq] at this
      simpa [assign_ranks] using this

/-- Claim C6 counterexample: on the spec scenario (original scores 0.9,
0.85, 0.80; cross-encoder scores 0.2, 0.95, 0.9) the reranked order is item
2, item 3, item 1 as claimed, but item 1 moves from original index 0 to new
index 2, so its rank_change under the code formula original minus new index
is -2, not the -1 the claim states. -/
theorem rerank_scenario_rank_change_is_minus_two :
    (cross_encoder_rerank c6_predict "q" c6_candidates none).map
        (fun l => l.map (fun r => r.chunk_id)) = some ["c2", "c3", "c1"]
    ∧ (cross_encoder_rerank c6_predict "q" c6_candidates none).map
        (fun l => l.map (fun r => r.rank_change)) = some [1, 1, -2]
    ∧ (cross_encoder_rerank c6_predict "q" c6_candidates none).map
        (fun l => l.map (fun r => r.rank_change)) ≠ some [1, 1, -1] := by
  refine ⟨by with_unfolding_all decide, by with_unfolding_all decide,
    by with_unfolding_all decide⟩

/-- Claim C6 amended: rerank sorts by cross-encoder score descending and
sets rank_change to original index minus new index (the original index read
from the original_ranks dictionary, defaulting to the new index); on the
spec scenario the output order is item 2, item 3, item 1 with rank_change
values +1, +1 and -2 (item 1 moved from index 0 to index 2). -/
theorem rerank_sorts_desc_with_rank_change :
    (∀ (predict : String → String → Option ℚ) (query : String)
        (documents : List RerankDoc) (top_k : Option Nat)
        (out : List RerankResult),
        cross_encoder_rerank predict query documents top_k = some out →
          out.Pairwise (fun a b => b.rerank_score ≤ a.rerank_score))
    ∧ (∀ (predict : String → String → Option ℚ) (query : String)
        (documents : List RerankDoc) (out : List RerankResult),
        cross_encoder_rerank predict query documents none = some out →
          ∀ (i : Nat) (h : i < out.length),
            (out.get ⟨i, h⟩).rank_change
              = (original_ranks_lookup documents (out.get ⟨i, h⟩).chunk_id i : Int)
                - (i : Int))
    ∧ cross_encoder_rerank c6_predict "q" c6_candidates none
        = some [⟨"t2", [], 85/100, 95/100, "c2", "D2", 1⟩,
                ⟨"t3", [], 8/10, 9/10, "c3", "D3", 1⟩,
                ⟨"t1", [], 9/10, 2/10, "c1", "D1", -2⟩] := by
  have hmain : ∀ (predict : String → String → Option ℚ) (query : String)
      (documents : List RerankDoc) (top_k : Option Nat)
      (out : List RerankResult),
      cross_encoder_rerank predict query documents top_k = some out →
        out = (match top_k with
          | some k => (assign_ranks documents 0
              (sort_by_score_desc (fun r => r.rerank_score)
                ((documents.zip ((documents.mapM
                    (fun doc => predict query doc.content)).getD [])).map
                  (fun p => (⟨p.1.content, p.1.metadata, p.1.similarity_score,
                    p.2, p.1.chunk_id, p.1.document_id, 0⟩ : RerankResult))))).take k
          | none => assign_ranks documents 0
              (sort_by_score_desc (fun r => r.rerank_score)
                ((documents.zip ((documents.mapM
                    (fun doc => predict query doc.content)).getD [])).map
                  (fun p => (⟨p.1.content, p.1.metadata, p.1.similarity_score,
                    p.2, p.1.chunk_id, p.1.document_id, 0⟩ : RerankResult)))))
        ∨ out = [] := by
    intro predict query documents top_k out hout
    rw [cross_encoder_rerank] at hout
    split at hout
    · right
      exact (Option.some_inj.mp hout).symm
    · cases hm : documents.mapM (fun doc => predict query doc.content) with
      | none => rw [hm] at hout; simp at hout
      | some scores =>
        rw [hm] at hout
        left
        simp only [Option.bind_eq_bind, Option.some_bind] at hout
        simpa using (Option.some_inj.mp hout).symm
  refine ⟨?_, ?_, by with_unfolding_all decide⟩
  · intro predict query documents top_k out hout
    rcases hmain predict query documents top_k out hout with hform | hempty
    · have hsorted := sort_by_score_desc_sorted (fun r => r.rerank_score)
        ((documents.zip ((documents.mapM
            (fun doc => predict query doc.content)).getD [])).map
          (fun p => (⟨p.1.content, p.1.metadata, p.1.similarity_score,
            p.2, p.1.chunk_id, p.1.document_id, 0⟩ : RerankResult)))
      have hmap := (@List.pairwise_map RerankResult ℚ (fun r => r.rerank_score)
        (fun x y => y ≤ x) _).mpr hsorted
      rw [← assign_ranks_map_score documents 0] at hmap
      have hranked := (@List.pairwise_map RerankResult ℚ (fun r => r.rerank_score)
        (fun x y => y ≤ x) _).mp hmap
      subst hform
      cases top_k with
      | none => exact hranked
      | some k => exact List.Pairwise.sublist (List.take_sublist k _) hranked
    · subst hempty; exact List.Pairwise.nil
  · intro predict query documents out hout i h
    rcases hmain predict query documents none out hout with hform | hempty
    · subst hform
      have := assign_ranks_rank_change documents
        (sort_by_score_desc (fun r => r.rerank_score)
          ((documents.zip ((documents.mapM
              (fun doc => predict query doc.content)).getD [])).map
            (fun p => (⟨p.1.content, p.1.metadata, p.1.similarity_score,
              p.2, p.1.chunk_id, p.1.document_id, 0⟩ : RerankResult)))) 0 i h
      simpa using this
    · subst hempty; simp at h

/-- Claim C6 witness: the sortedness and rank-change facts instantiated on
the concrete spec scenario. -/
theorem rerank_sorts_desc_with_rank_change_witness :
    List.Pairwise (fun a b => b.rerank_score ≤ a.rerank_score)
      [(⟨"t2", [], 85/100, 95/100, "c2", "D2", 1⟩ : RerankResult),
       ⟨"t3", [], 8/10, 9/10, "c3", "D3", 1⟩,
       ⟨"t1", [], 9/10, 2/10, "c1", "D1", -2⟩] :=
  rerank_sorts_desc_with_rank_change.1 c6_predict "q" c6_candidates none
    [⟨"t2", [], 85/100, 95/100, "c2", "D2", 1⟩,
     ⟨"t3", [], 8/10, 9/10, "c3", "D3", 1⟩,
     ⟨"t1", [], 9/10, 2/10, "c1", "D1", -2⟩]
    (by with_unfolding_all decide)

theorem upsert_update_chunk_id (now : Nat) (d : EmbeddingData) (r : PgRow) :
    (upsert_update now d r).chunk_id = r.chunk_id := by
  unfold upsert_update
  split <;> rfl

theorem filter_map_upsert_ne (now : Nat) (e : EmbeddingData) (id : String)
    (hne : e.chunk_id ≠ id) (t : List PgRow) :
    (t.map (upsert_update now e)).filter (fun r => r.chunk_id == id)
      = t.filter (fun r => r.chunk_id == id) := by
  induction t with
  | nil => rfl
  | cons r rs ih =>
    simp only [List.map_cons, List.filter_cons, upsert_update_chunk_id, ih]
    by_cases hc : r.chunk_id = id
    · have h1 : upsert_update now e r = r := by
        unfold upsert_update
        rw [if_neg]
        intro hb
        exact hne ((eq_of_beq hb).symm.trans hc)
      simp [hc, h1]
    · simp [hc]

theorem filter_map_upsert_none (now : Nat) (d : EmbeddingData) (t : List PgRow)
    (hnot : d.chunk_id ∉ t.map (fun r => r.chunk_id)) :
    (t.map (upsert_update now d)).filter (fun r => r.chunk_id == d.chunk_id) = [] := by
  rw [List.filter_eq_nil_iff]
  intro r hr
  rcases List.mem_map.mp hr with ⟨r0, hr0, hup⟩
  subst hup
  rw [upsert_update_chunk_id]
  simp only [beq_iff_eq]
  intro he
  exact hnot (List.mem_map.mpr ⟨r0, hr0, he⟩)

theorem filter_upsert_row_ne (now : Nat) (e : EmbeddingData) (id : String)
    (hne : e.chunk_id ≠ id) (t : List PgRow) :
    (upsert_row now t e).filter (fun r => r.chunk_id == id)
      = t.filter (fun r => r.chunk_id == id) := by
  unfold upsert_row
  split
  · exact filter_map_upsert_ne now e id hne t
  · rw [List.filter_append]
    have hnew : (([⟨e.document_id, e.chunk_id, e.content, e.embedding, e.metadata,
        e.created_at, insert_default_updated_at now⟩] : List PgRow).filter
          (fun r => r.chunk_id == id)) = [] := by
      simp [beq_iff_eq, hne]
    rw [hnew, List.append_nil]

theorem filter_fold_upsert_not_in_batch (now : Nat) (id : String) :
    ∀ (batch : List EmbeddingData) (t : List PgRow),
      (∀ e ∈ batch, e.chunk_id ≠ id) →
      (pg_add_embeddings now t batch).filter (fun r => r.chunk_id == id)
        = t.filter (fun r => r.chunk_id == id) := by
  intro batch
  induction batch with
  | nil => intro t _; rfl
  | cons e es ih =>
    intro t h
    have h1 : pg_add_embeddings now t (e :: es)
        = pg_add_embeddings now (upsert_row now t e) es := rfl
    rw [h1, ih (upsert_row now t e) (fun x hx => h x (List.mem_cons_of_mem e hx)),
      filter_upsert_row_ne now e id (h e (List.mem_cons_self e es)) t]

theorem upsert_row_own_mem (now : Nat) (t : List PgRow) (d : EmbeddingData) :
    d.chunk_id ∈ (upsert_row now t d).map (fun r => r.chunk_id) := by
  unfold upsert_row
  split
  · rename_i hany
    rcases List.any_eq_true.mp hany with ⟨r, hr, hb⟩
    exact List.mem_map.mpr ⟨upsert_update now d r,
      List.mem_map_of_mem (upsert_update now d) hr,
      by rw [upsert_update_chunk_id]; exact eq_of_beq hb⟩
  · exact List.mem_map.mpr ⟨⟨d.document_id, d.chunk_id, d.content, d.embedding,
      d.metadata, d.created_at, insert_default_updated_at now⟩, by simp, rfl⟩

theorem upsert_row_values (now : Nat) (t : List PgRow) (d : EmbeddingData) :
    ∀ r ∈ upsert_row now t d, r.chunk_id = d.chunk_id →
      r.content = d.content ∧ r.embedding = d.embedding
        ∧ r.metadata = d.metadata ∧ r.updated_at = some now := by
  intro r hr hid
  unfold upsert_row at hr
  split at hr
  · rcases List.mem_map.mp hr with ⟨r0, hr0, hup⟩
    by_cases hb : (r0.chunk_id == d.chunk_id) = true
    · have : upsert_update now d r0 =
          { r0 with content := d.content, embedding := d.embedding,
                    metadata := d.metadata, updated_at := some now } := by
        unfold upsert_update
        rw [if_pos hb]
      rw [this] at hup
      subst hup
      exact ⟨rfl, rfl, rfl, rfl⟩
    · have : upsert_update now d r0 = r0 := by
        unfold upsert_update
        rw [if_neg hb]
      rw [this] at hup
      subst hup
      exact absurd (beq_iff_eq.mpr hid) hb
  · rename_i hany
    rcases List.mem_append.mp hr with hin | hnew
    · exact absurd ((@List.any_eq_true PgRow (fun x => x.chunk_id == d.chunk_id)
        t).mpr ⟨r, hin, beq_iff_eq.mpr hid⟩) hany
    · have : r = ⟨d.document_id, d.chunk_id, d.content, d.embedding,
          d.metadata, d.created_at, insert_default_updated_at now⟩ := by
        simpa using hnew
      subst this
      exact ⟨rfl, rfl, rfl, rfl⟩

theorem upsert_row_fixpoint (now : Nat) (t : List PgRow) (d : EmbeddingData)
    (hmem : d.chunk_id ∈ t.map (fun r => r.chunk_id))
    (hvals : ∀ r ∈ t, r.chunk_id = d.chunk_id →
      r.content = d.content ∧ r.embedding = d.embedding
        ∧ r.metadata = d.metadata ∧ r.updated_at = some now) :
    upsert_row now t d = t := by
  rcases List.mem_map.mp hmem with ⟨r0, hr0, hid0⟩
  have hany : t.any (fun r => r.chunk_id == d.chunk_id) = true :=
    List.any_eq_true.mpr ⟨r0, hr0, beq_iff_eq.mpr hid0⟩
  unfold upsert_row
  rw [if_pos hany]
  have hfun : ∀ r ∈ t, upsert_update now d r = r := by
    intro r hr
    unfold upsert_update
    split
    · rename_i hb
      obtain ⟨h1, h2, h3, h4⟩ := hvals r hr (eq_of_beq hb)
      cases r
      simp only at h1 h2 h3 h4
      rw [← h1, ← h2, ← h3, ← h4]
    · rfl
  rw [List.map_congr_left hfun]
  simp

theorem mem_ids_iff_rows_ne_nil (id : String) (t : List PgRow) :
    id ∈ t.map (fun r => r.chunk_id)
      ↔ t.filter (fun r => r.chunk_id == id) ≠ [] := by
  rw [Ne, List.filter_eq_nil_iff]
  push_neg
  simp only [List.mem_map, beq_iff_eq]

theorem filter_map_upsert_own (now : Nat) (d : EmbeddingData) :
    ∀ (t : List PgRow), (t.map (fun r => r.chunk_id)).Nodup →
      d.chunk_id ∈ t.map (fun r => r.chunk_id) →
      ((t.map (upsert_update now d)).filter (fun r => r.chunk_id == d.chunk_id)).map
          (fun r => (r.content, r.embedding, r.metadata, r.updated_at))
        = [(d.content, d.embedding, d.metadata, some now)] := by
  intro t
  induction t with
  | nil => intro _ hmem; simp at hmem
  | cons r rs ih =>
    intro hnodup hmem
    rw [List.map_cons, List.nodup_cons] at hnodup
    by_cases hr : r.chunk_id = d.chunk_id
    · have hhead : upsert_update now d r =
          { r with content := d.content, embedding := d.embedding,
                   metadata := d.metadata, updated_at := some now } := by
        unfold upsert_update
        rw [if_pos (beq_iff_eq.mpr hr)]
      have htail : (rs.map (upsert_update now d)).filter
          (fun x => x.chunk_id == d.chunk_id) = [] := by
        refine filter_map_upsert_none now d rs ?_
        intro hcontra
        exact hnodup.1 (hr ▸ hcontra)
      simp only [List.map_cons, List.filter_cons, upsert_update_chunk_id]
      rw [if_pos (beq_iff_eq.mpr hr), htail, hhead]
      rfl
    · have hdrop : ((upsert_update now d r).chunk_id == d.chunk_id) = false := by
        rw [upsert_update_chunk_id]
        exact beq_eq_false_iff_ne.mpr hr
      have hmem2 : d.chunk_id ∈ rs.map (fun x => x.chunk_id) := by
        have hcases : d.chunk_id = r.chunk_id ∨ ∃ a ∈ rs, a.chunk_id = d.chunk_id := by
          simpa using hmem
        rcases hcases with h | h
        · exact absurd h.symm hr
        · rcases h with ⟨a, ha, hae⟩
          exact List.mem_map.mpr ⟨a, ha, hae⟩
      simp only [List.map_cons, List.filter_cons, hdrop]
      rw [if_neg (by simp)]
      exact ih hnodup.2 hmem2

theorem pg_add_embeddings_idempotent_aux (now : Nat) :
    ∀ (batch : List EmbeddingData),
      (batch.map (fun e => e.chunk_id)).Nodup →
      ∀ t : List PgRow,
        pg_add_embeddings now (pg_add_embeddings now t batch) batch
          = pg_add_embeddings now t batch := by
  intro batch
  induction batch with
  | nil => intro _ t; rfl
  | cons e es ih =>
    intro hnodup t
    rw [List.map_cons, List.nodup_cons] at hnodup
    have hes : ∀ x ∈ es, x.chunk_id ≠ e.chunk_id := by
      intro x hx hcontra
      exact hnodup.1 (hcontra ▸ List.mem_map_of_mem (fun y => y.chunk_id) hx)
    have hrows : (pg_add_embeddings now (upsert_row now t e) es).filter
        (fun r => r.chunk_id == e.chunk_id)
          = (upsert_row now t e).filter (fun r => r.chunk_id == e.chunk_id) :=
      filter_fold_upsert_not_in_batch now e.chunk_id es (upsert_row now t e) hes
    have hfix : upsert_row now (pg_add_embeddings now (upsert_row now t e) es) e
        = pg_add_embeddings now (upsert_row now t e) es := by
      apply upsert_row_fixpoint
      · rw [mem_ids_iff_rows_ne_nil, hrows, ← mem_ids_iff_rows_ne_nil]
        exact upsert_row_own_mem now t e
      · intro r hr hrid
        have hr2 : r ∈ (upsert_row now t e).filter
            (fun x => x.chunk_id == e.chunk_id) := by
          rw [← hrows]
          exact List.mem_filter.mpr ⟨hr, beq_iff_eq.mpr hrid⟩
        have hr3 := List.mem_filter.mp hr2
        exact upsert_row_values now t e r hr3.1 (eq_of_beq hr3.2)
    have hgoal1 : pg_add_embeddings now t (e :: es)
        = pg_add_embeddings now (upsert_row now t e) es := rfl
    rw [hgoal1]
    have hgoal2 : pg_add_embeddings now
        (pg_add_embeddings now (upsert_row now t e) es) (e :: es)
          = pg_add_embeddings now
            (upsert_row now (pg_add_embeddings now (upsert_row now t e) es) e) es := rfl
    rw [hgoal2, hfix]
    exact ih hnodup.2 (upsert_row now t e)

/-- Claim C8: pgvector add_embeddings is an idempotent upsert keyed by
chunk_id. On a table whose chunk ids are unique, upserting a record whose
chunk_id already exists leaves exactly one row with that id, carrying the
newly supplied content, embedding and metadata and an updated_at equal to
the statement time, while the multiset of chunk ids is unchanged; and
re-adding a batch (of distinct chunk ids) twice produces exactly the table
produced by adding it once. -/
theorem pg_add_embeddings_upsert_idempotent
    (now : Nat) (table : List PgRow) (d : EmbeddingData)
    (batch : List EmbeddingData)
    (huniq : (table.map (fun r => r.chunk_id)).Nodup)
    (hmem : d.chunk_id ∈ table.map (fun r => r.chunk_id))
    (hbatch : (batch.map (fun e => e.chunk_id)).Nodup) :
    (((pg_add_embeddings now table [d]).filter
        (fun r => r.chunk_id == d.chunk_id)).map
          (fun r => (r.content, r.embedding, r.metadata, r.updated_at))
      = [(d.content, d.embedding, d.metadata, some now)])
    ∧ ((pg_add_embeddings now table [d]).map (fun r => r.chunk_id)
        = table.map (fun r => r.chunk_id))
    ∧ pg_add_embeddings now (pg_add_embeddings now table batch) batch
        = pg_add_embeddings now table batch := by
  have hany : table.any (fun r => r.chunk_id == d.chunk_id) = true := by
    rcases List.mem_map.mp hmem with ⟨r0, hr0, hid⟩
    exact List.any_eq_true.mpr ⟨r0, hr0, beq_iff_eq.mpr hid⟩
  have hone : pg_add_embeddings now table [d] = upsert_row now table d := rfl
  refine ⟨?_, ?_, pg_add_embeddings_idempotent_aux now batch hbatch table⟩
  · rw [hone, upsert_row, if_pos hany]
    exact filter_map_upsert_own now d table huniq hmem
  · rw [hone, upsert_row, if_pos hany]
    simp only [List.map_map]
    exact List.map_congr_left fun r hr => upsert_update_chunk_id now d r

/-- Claim C8 witness: a one-row table re-upserted with new values for the
same chunk id, and a one-record batch added twice. -/
theorem pg_add_embeddings_upsert_idempotent_witness :
    ((([(⟨"D1", "c1", "old", [1], [("k", "v")], some 1, none⟩ : PgRow)].map
        (fun r => r.chunk_id)).Nodup)
    ∧ ("c1" ∈ [(⟨"D1", "c1", "old", [1], [("k", "v")], some 1, none⟩ : PgRow)].map
        (fun r => r.chunk_id))
    ∧ (([(⟨"D1", "c1", "new", [2], [("k", "w")], some 5⟩ : EmbeddingData)].map
        (fun e => e.chunk_id)).Nodup))
    ∧ ((((pg_add_embeddings 7 [⟨"D1", "c1", "old", [1], [("k", "v")], some 1, none⟩]
          [⟨"D1", "c1", "new", [2], [("k", "w")], some 5⟩]).filter
            (fun r => r.chunk_id == "c1")).map
              (fun r => (r.content, r.embedding, r.metadata, r.updated_at))
        = [("new", [2], [("k", "w")], some 7)])
      ∧ ((pg_add_embeddings 7 [⟨"D1", "c1", "old", [1], [("k", "v")], some 1, none⟩]
          [⟨"D1", "c1", "new", [2], [("k", "w")], some 5⟩]).map (fun r => r.chunk_id)
        = [(⟨"D1", "c1", "old", [1], [("k", "v")], some 1, none⟩ : PgRow)].map
            (fun r => r.chunk_id))
      ∧ pg_add_embeddings 7
          (pg_add_embeddings 7 [⟨"D1", "c1", "old", [1], [("k", "v")], some 1, none⟩]
            [⟨"D1", "c1", "new", [2], [("k", "w")], some 5⟩])
          [⟨"D1", "c1", "new", [2], [("k", "w")], some 5⟩]
        = pg_add_embeddings 7 [⟨"D1", "c1", "old", [1], [("k", "v")], some 1, none⟩]
            [⟨"D1", "c1", "new", [2], [("k", "w")], some 5⟩]) :=
  ⟨⟨by decide, by decide, by decide⟩,
    pg_add_embeddings_upsert_idempotent 7
      [⟨"D1", "c1", "old", [1], [("k", "v")], some 1, none⟩]
      ⟨"D1", "c1", "new", [2], [("k", "w")], some 5⟩
      [⟨"D1", "c1", "new", [2], [("k", "w")], some 5⟩]
      (by decide) (by decide) (by decide)⟩
